import Mathlib

/-
Formal model of the mongodb2gcs pipeline (src/main.py, src/src/gcs_uploader.py,
src/src/mongodb_exporter.py, src/src/progress.py).

Modelling conventions:
* Python/BSON values are the inductive `Value`; Python dicts are association
  lists with unique keys, with the usual CPython semantics (assignment to an
  existing key keeps its position, a new key is appended at the end).
* Machine floats that only carry data (record payloads) are modelled as exact
  rationals; the single float comparison in the code (`count / total > 0.7`)
  is modelled as the exact rational comparison, which agrees with the IEEE
  double computation for every sample size that can occur (total <= 500).
* ObjectId timestamps are rationals measured in seconds; the one time unit
  added by the partitioner (`timedelta(seconds=1)`) is the literal 1.
* Effectful operations (MongoDB cursors, GCS uploads, the Redis store) are
  modelled by passing the outcome of the effect, or the store contents,
  explicitly as arguments.
-/

namespace Mongo2GCS

/-- Python/BSON values as they occur in exported records. `vDate` carries the
value of `isoformat()`; `vOid` carries the hex string of a BSON ObjectId. -/
inductive Value where
  | vNull
  | vBool (b : Bool)
  | vInt (n : Int)
  | vFloat (q : Rat)
  | vStr (s : String)
  | vList (xs : List Value)
  | vDict (kvs : List (String × Value))
  | vDate (iso : String)
  | vOid (hex : String)

/-- A MongoDB record / Python dict: an association list from field names to
values (keys unique in any dict produced by the model). -/
abbrev Rec := List (String × Value)

/-- A schema dict mapping field names to normalization-strategy names. -/
abbrev Schema := List (String × String)

/-- Python `d.get(k)` / `d[k]` lookup on an association list: first match. -/
def dictGet {α : Type} (d : List (String × α)) (k : String) : Option α :=
  match d with
  | [] => none
  | (k', v) :: rest => if k' = k then some v else dictGet rest k

/-- Python `d[k] = v`: replace the first binding of `k` in place, or append
`(k, v)` when `k` is absent (CPython dict insertion-order semantics). -/
def dictSet {α : Type} (d : List (String × α)) (k : String) (v : α) :
    List (String × α) :=
  match d with
  | [] => [(k, v)]
  | (k', v') :: rest =>
    if k' = k then (k, v) :: rest else (k', v') :: dictSet rest k v

/-- Python `d.keys()`. -/
def dictKeys {α : Type} (d : List (String × α)) : List String := d.map Prod.fst

/-- Python `record.get(field)`: returns `None` both when the field is absent
and when it is present with value `None`; the normalizer only ever sees the
merged `vNull`. -/
def pyGet (r : Rec) (f : String) : Value := (dictGet r f).getD Value.vNull

/-- Digits of a plain decimal natural number; `none` when empty or non-digit
characters occur. -/
def digitsToNat (cs : List Char) : Option Nat :=
  if cs.isEmpty then none
  else if cs.all Char.isDigit then
    some (cs.foldl (fun a c => a * 10 + (c.toNat - 48)) 0)
  else none

/-- Modelled CPython `float(s)` on plain decimal text: optional sign, integer
part, optional fractional part. Scientific notation, infinities and leading
whitespace are outside the model (no claim depends on them). -/
def parseDecimal (s : String) : Option Rat :=
  let (sgn, body) : Rat × String :=
    if s.startsWith "-" then (-1, s.drop 1)
    else if s.startsWith "+" then (1, s.drop 1)
    else (1, s)
  match body.splitOn "." with
  | [intPart] => (digitsToNat intPart.toList).map (fun n => sgn * (n : Rat))
  | [intPart, fracPart] =>
    if intPart.isEmpty && fracPart.isEmpty then none
    else
      let ip := if intPart.isEmpty then some 0 else digitsToNat intPart.toList
      let fp := if fracPart.isEmpty then some 0 else digitsToNat fracPart.toList
      ip.bind (fun a => fp.map (fun b =>
        sgn * ((a : Rat) + (b : Rat) / (10 : Rat) ^ fracPart.length)))
  | _ => none

mutual

/-- Modelled CPython `str(value)` for exported values (numeric text rendering
of floats is abstracted; `str(ObjectId)` is the hex string, which is the only
use the code makes of `str` on ids). -/
def pyStr : Value → String
  | .vNull => "None"
  | .vBool b => cond b "True" "False"
  | .vInt n => toString n
  | .vFloat q => toString q
  | .vStr s => s
  | .vDate iso => iso
  | .vOid h => h
  | .vList xs => "[" ++ String.intercalate ", " (pyStrList xs) ++ "]"
  | .vDict kvs => "\x7b" ++ String.intercalate ", " (pyStrPairs kvs) ++ "\x7d"

def pyStrList : List Value → List String
  | [] => []
  | v :: vs => pyStr v :: pyStrList vs

def pyStrPairs : List (String × Value) → List String
  | [] => []
  | (k, v) :: rest => (k ++ ": " ++ pyStr v) :: pyStrPairs rest

end

/-- JSON string quoting with minimal escaping (quote and backslash). -/
def jsonQuote (s : String) : String :=
  "\"" ++ String.join (s.toList.map (fun c =>
    if c = '"' then "\\\"" else if c = '\\' then "\\\\" else String.singleton c)) ++ "\""

mutual

/-- Modelled `json.dumps(value, default=str)` as used by the uploader; objects
without a JSON encoding (datetimes, ObjectIds) go through `str` per
`default=str`. -/
def jsonDumps : Value → String
  | .vNull => "null"
  | .vBool b => cond b "true" "false"
  | .vInt n => toString n
  | .vFloat q => toString q
  | .vStr s => jsonQuote s
  | .vDate iso => jsonQuote iso
  | .vOid h => jsonQuote h
  | .vList xs => "[" ++ String.intercalate ", " (jsonDumpsList xs) ++ "]"
  | .vDict kvs => "\x7b" ++ String.intercalate ", " (jsonDumpsPairs kvs) ++ "\x7d"

def jsonDumpsList : List Value → List String
  | [] => []
  | v :: vs => jsonDumps v :: jsonDumpsList vs

def jsonDumpsPairs : List (String × Value) → List String
  | [] => []
  | (k, v) :: rest => (jsonQuote k ++ ": " ++ jsonDumps v) :: jsonDumpsPairs rest

end

section Exporter

/-- One ObjectId range produced by `MongoDBExporter.get_id_ranges`: the
half-open interval of embedded timestamps `[start, stop)` (seconds). -/
structure IdRange where
  start : Rat
  stop : Rat
deriving DecidableEq

/-- Membership of a timestamp in a half-open range, matching the query of
`create_cursor_for_range` (gte the start, lt the end). -/
def rangeMem (r : IdRange) (x : Rat) : Prop := r.start ≤ x ∧ x < r.stop

instance (r : IdRange) (x : Rat) : Decidable (rangeMem r x) := by
  unfold rangeMem; infer_instance

/-- Loop body of `get_id_ranges`: `current_time` is threaded through; the end
of every range but the last is `current + chunk_duration`, the last end is
`max_timestamp + timedelta(seconds=1)`, and `current_time` becomes the end. -/
def idRangesLoop (d maxTs : Rat) : Rat → Nat → List IdRange
  | _, 0 => []
  | current, 1 => [⟨current, maxTs + 1⟩]
  | current, k + 2 =>
    ⟨current, current + d⟩ :: idRangesLoop d maxTs (current + d) (k + 1)

/-- `MongoDBExporter.get_id_ranges`: chunk_duration is the (exact) division of
the time span by the number of chunks; the loop starts at the min timestamp. -/
def getIdRanges (minTs maxTs : Rat) (numChunks : Nat) : List IdRange :=
  idRangesLoop ((maxTs - minTs) / numChunks) maxTs minTs numChunks

/-- Closed form of the range loop: `k` interior ranges `[c+i*d, c+(i+1)*d)`
followed by the final range `[c+k*d, M+1)`. -/
theorem idRangesLoop_closed (d M : Rat) :
    ∀ (k : Nat) (c : Rat),
      idRangesLoop d M c (k + 1) =
        ((List.range k).map
            (fun i : Nat => IdRange.mk (c + (i : Rat) * d) (c + ((i : Rat) + 1) * d))) ++
          [IdRange.mk (c + (k : Rat) * d) (M + 1)] := by
  intro k
  induction k with
  | zero =>
    intro c
    simp [idRangesLoop]
  | succ k ih =>
    intro c
    show (⟨c, c + d⟩ : IdRange) :: idRangesLoop d M (c + d) (k + 1) = _
    rw [ih (c + d)]
    rw [List.range_succ_eq_map, List.map_cons, List.map_map]
    have h0 : IdRange.mk (c + ((0 : Nat) : Rat) * d) (c + (((0 : Nat) : Rat) + 1) * d)
        = IdRange.mk c (c + d) := by
      simp [IdRange.mk.injEq]
    have hmap : (List.range k).map
          ((fun i : Nat => IdRange.mk (c + (i : Rat) * d) (c + ((i : Rat) + 1) * d)) ∘ Nat.succ)
        = (List.range k).map
          (fun i : Nat => IdRange.mk ((c + d) + (i : Rat) * d) ((c + d) + ((i : Rat) + 1) * d)) := by
      refine List.map_congr_left ?_
      intro i _
      simp only [Function.comp_apply, Nat.succ_eq_add_one, IdRange.mk.injEq]
      push_cast
      constructor <;> ring
    have hlast : IdRange.mk ((c + d) + (k : Rat) * d) (M + 1)
        = IdRange.mk (c + ((k + 1 : Nat) : Rat) * d) (M + 1) := by
      simp only [IdRange.mk.injEq, and_true]
      push_cast
      ring
    rw [h0, hmap, hlast]
    simp

/-- Pairwise disjointness of a list of half-open ranges: no timestamp lies in
two ranges at distinct positions of the list. -/
def rangesDisjoint (rs : List IdRange) : Prop :=
  rs.Pairwise (fun r s => ∀ x : Rat, ¬(rangeMem r x ∧ rangeMem s x))

/-- The partition property of `get_id_ranges` for a span `[minTs, maxTs]` cut
into `n` ranges: exactly `n` ranges, listed in nondecreasing start order,
pairwise non-overlapping, whose union covers the closed span, and whose last
range ends exactly one time unit past the max timestamp. -/
def rangesPartition (minTs maxTs : Rat) (n : Nat) : Prop :=
  (getIdRanges minTs maxTs n).length = n ∧
  (getIdRanges minTs maxTs n).Pairwise (fun r s => r.start ≤ s.start) ∧
  rangesDisjoint (getIdRanges minTs maxTs n) ∧
  (∀ x : Rat, minTs ≤ x → x ≤ maxTs →
    ∃ r ∈ getIdRanges minTs maxTs n, rangeMem r x) ∧
  (∃ last, (getIdRanges minTs maxTs n).getLast? = some last ∧
    last.stop = maxTs + 1 ∧ maxTs < last.stop)

theorem cast_mul_le_of_le {i j : Nat} (h : i ≤ j) {d : Rat} (hd : 0 ≤ d) :
    (i : Rat) * d ≤ (j : Rat) * d :=
  mul_le_mul_of_nonneg_right (by exact_mod_cast h) hd

/-- C3: for n at least 1 and min timestamp at most max timestamp,
`get_id_ranges` returns exactly n ranges, in index order, pairwise
non-overlapping half-open intervals covering the closed span, the last ending
one unit past the max. -/
theorem getIdRanges_partition (minTs maxTs : Rat) (n : Nat)
    (hn : 1 ≤ n) (hle : minTs ≤ maxTs) : rangesPartition minTs maxTs n := by
  obtain ⟨k, rfl⟩ : ∃ k, n = k + 1 := ⟨n - 1, (Nat.succ_pred_eq_of_pos hn).symm⟩
  set d : Rat := (maxTs - minTs) / ((k + 1 : Nat) : Rat) with hdDef
  have hd : 0 ≤ d := by
    apply div_nonneg (by linarith)
    positivity
  have hcl : getIdRanges minTs maxTs (k + 1) =
      ((List.range k).map
        (fun i : Nat =>
          IdRange.mk (minTs + (i : Rat) * d) (minTs + ((i : Rat) + 1) * d))) ++
      [IdRange.mk (minTs + (k : Rat) * d) (maxTs + 1)] := by
    unfold getIdRanges
    rw [idRangesLoop_closed]
  rw [rangesPartition, rangesDisjoint, hcl]
  refine ⟨by simp, ?_, ?_, ?_, ?_⟩
  · -- nondecreasing starts
    rw [List.pairwise_append]
    refine ⟨?_, by simp, ?_⟩
    · rw [List.pairwise_map]
      refine (List.pairwise_lt_range k).imp ?_
      intro i j hij
      simp only
      have := cast_mul_le_of_le (Nat.le_of_lt hij) hd
      linarith
    · intro a ha b hb
      simp only [List.mem_map, List.mem_range] at ha
      obtain ⟨i, hik, rfl⟩ := ha
      simp only [List.mem_singleton] at hb
      subst hb
      simp only
      have := cast_mul_le_of_le (Nat.le_of_lt hik) hd
      linarith
  · -- pairwise disjoint
    rw [List.pairwise_append]
    refine ⟨?_, by simp, ?_⟩
    · rw [List.pairwise_map]
      refine (List.pairwise_lt_range k).imp ?_
      intro i j hij x hx
      obtain ⟨⟨_, hx2⟩, ⟨hx3, _⟩⟩ := hx
      simp only at hx2 hx3
      have : ((i : Rat) + 1) * d ≤ (j : Rat) * d := by
        have := cast_mul_le_of_le (Nat.succ_le_of_lt hij) hd
        push_cast at this
        linarith
      linarith
    · intro a ha b hb x hx
      simp only [List.mem_map, List.mem_range] at ha
      obtain ⟨i, hik, rfl⟩ := ha
      simp only [List.mem_singleton] at hb
      subst hb
      obtain ⟨⟨_, hx2⟩, ⟨hx3, _⟩⟩ := hx
      simp only at hx2 hx3
      have : ((i : Rat) + 1) * d ≤ (k : Rat) * d := by
        have := cast_mul_le_of_le (Nat.succ_le_of_lt hik) hd
        push_cast at this
        linarith
      linarith
  · -- coverage of the closed span
    intro x hx1 hx2
    by_cases hcase : minTs + (k : Rat) * d ≤ x
    · refine ⟨IdRange.mk (minTs + (k : Rat) * d) (maxTs + 1), ?_, hcase, ?_⟩
      · exact List.mem_append_right _ (List.mem_singleton.mpr rfl)
      · show x < maxTs + 1
        linarith
    · push_neg at hcase
      have hdpos : 0 < d := by
        rcases lt_or_le 0 d with h | h
        · exact h
        · exfalso
          have : (k : Rat) * d ≤ 0 :=
            mul_nonpos_of_nonneg_of_nonpos (Nat.cast_nonneg k) h
          linarith
      set y : Rat := (x - minTs) / d with hyDef
      have hy0 : 0 ≤ y := div_nonneg (by linarith) hdpos.le
      have hyd : y * d = x - minTs := div_mul_cancel₀ _ (ne_of_gt hdpos)
      have hik : Nat.floor y < k := by
        rw [Nat.floor_lt hy0, hyDef, div_lt_iff₀ hdpos]
        linarith
      refine ⟨IdRange.mk (minTs + (Nat.floor y : Rat) * d)
          (minTs + ((Nat.floor y : Rat) + 1) * d), ?_, ?_, ?_⟩
      · refine List.mem_append_left _ ?_
        exact List.mem_map.mpr ⟨Nat.floor y, List.mem_range.mpr hik, rfl⟩
      · have h1 : (Nat.floor y : Rat) ≤ y := Nat.floor_le hy0
        have : (Nat.floor y : Rat) * d ≤ y * d :=
          mul_le_mul_of_nonneg_right h1 hdpos.le
        rw [hyd] at this
        simp only
        linarith
      · have h2 : y < (Nat.floor y : Rat) + 1 := Nat.lt_floor_add_one y
        have : y * d < ((Nat.floor y : Rat) + 1) * d :=
          mul_lt_mul_of_pos_right h2 hdpos
        rw [hyd] at this
        simp only
        linarith
  · -- last range
    refine ⟨IdRange.mk (minTs + (k : Rat) * d) (maxTs + 1), ?_, rfl, ?_⟩
    · exact List.getLast?_concat _
    · show maxTs < maxTs + 1
      linarith

/-- Witness for C3 at minTs = 0, maxTs = 10, n = 2. -/
theorem getIdRanges_partition_witness : rangesPartition 0 10 2 :=
  getIdRanges_partition 0 10 2 (by norm_num) (by norm_num)

/-- C7 (amended): when the min and max ObjectIds carry the same embedded
timestamp, chunk_duration is zero, so the first n-1 returned ranges are the
empty interval at that timestamp and only the last range is the one-unit
interval past it. -/
theorem getIdRanges_sameTs (t : Rat) (n : Nat) (hn : 1 ≤ n) :
    getIdRanges t t n =
      List.replicate (n - 1) (IdRange.mk t t) ++ [IdRange.mk t (t + 1)] := by
  obtain ⟨k, rfl⟩ : ∃ k, n = k + 1 := ⟨n - 1, (Nat.succ_pred_eq_of_pos hn).symm⟩
  unfold getIdRanges
  rw [idRangesLoop_closed]
  have hd : (t - t) / ((k + 1 : Nat) : Rat) = 0 := by simp
  rw [hd]
  simp only [mul_zero, add_zero, Nat.add_sub_cancel]
  congr 1
  rw [List.eq_replicate_iff]
  refine ⟨by simp, ?_⟩
  intro b hb
  simp only [List.mem_map, List.mem_range] at hb
  obtain ⟨i, _, rfl⟩ := hb
  rfl

/-- Witness for C7 (amended) at t = 5, n = 3. -/
theorem getIdRanges_sameTs_witness :
    getIdRanges 5 5 3 =
      List.replicate 2 (IdRange.mk 5 5) ++ [IdRange.mk 5 (5 + 1)] :=
  getIdRanges_sameTs 5 3 (by norm_num)

/-- Counterexample to C7 as stated: with min_ts = max_ts = 0 and n = 2 the
first returned range is the empty interval [0, 0), not [0, 0 + 1). -/
theorem getIdRanges_sameTs_cex :
    ¬ (∀ r ∈ getIdRanges 0 0 2, r = IdRange.mk 0 (0 + 1)) := by
  intro h
  have hlist : getIdRanges 0 0 2 = [IdRange.mk 0 0, IdRange.mk 0 1] := by
    show idRangesLoop ((0 - 0) / ((2 : Nat) : Rat)) 0 0 2 = _
    norm_num [idRangesLoop]
  have hmem : IdRange.mk 0 0 ∈ getIdRanges 0 0 2 := by
    rw [hlist]
    simp
  have h01 : (0 : Rat) = 0 + 1 := congrArg IdRange.stop (h _ hmem)
  norm_num at h01

/-- Result dict of `export_chunk` (the wall-clock duration field is an
environment effect and is omitted). -/
structure ExportResult where
  chunk_index : Nat
  records : List Rec
  record_count : Nat
  start_id : String
  end_id : String
  success : Bool
  error : Option String

/-- `MongoDBExporter.export_chunk`. The cursor iteration (including its
memory-limit early break) is summarised by the extraction outcome passed in:
`.ok docs` is the list of documents the loop appended, `.error msg` an
exception with text `msg` raised anywhere during extraction. On the success
path every document gets its `_id` replaced by its string form; on the
exception path the function returns a failure dict instead of propagating. -/
def exportChunk (fetch : Except String (List Rec)) (startId endId : String)
    (chunkIndex : Nat) : ExportResult :=
  match fetch with
  | .ok docs =>
    let records := docs.map (fun d => dictSet d "_id" (.vStr (pyStr (pyGet d "_id"))))
    { chunk_index := chunkIndex, records := records,
      record_count := records.length, start_id := startId, end_id := endId,
      success := true, error := none }
  | .error msg =>
    { chunk_index := chunkIndex, records := [], record_count := 0,
      start_id := startId, end_id := endId, success := false,
      error := some msg }

/-- C8 (amended): on any extraction exception, `export_chunk` returns
success = false, an empty record list, a record count of zero, and an error
string equal to the exception text (hence non-empty exactly when that text
is); the exception is not propagated. -/
theorem exportChunk_error (msg startId endId : String) (i : Nat) :
    (exportChunk (Except.error msg) startId endId i).success = false ∧
    (exportChunk (Except.error msg) startId endId i).records = [] ∧
    (exportChunk (Except.error msg) startId endId i).record_count = 0 ∧
    (exportChunk (Except.error msg) startId endId i).error = some msg :=
  ⟨rfl, rfl, rfl, rfl⟩

/-- Counterexample to C8 as stated: an exception whose text is empty (such as
`Exception()` in Python, whose `str` is the empty string) yields an empty
error string, so the returned error string is not always non-empty. -/
theorem exportChunk_error_cex :
    ¬ ∃ e, (exportChunk (Except.error "") "a" "b" 0).error = some e ∧ e ≠ "" := by
  rintro ⟨e, he, hne⟩
  have h0 : (exportChunk (Except.error "") "a" "b" 0).error = some "" := rfl
  rw [h0] at he
  exact hne (Option.some.inj he).symm

end Exporter

section GCSUploader

/-- Priority table of `_resolve_schema_conflict` (`strategy_priority`); names
outside the table get the default 999 of `dict.get`. Lower number = more
general strategy. -/
def strategyPriority (s : String) : Nat :=
  if s = "json_string" then 1
  else if s = "string" then 2
  else if s = "mostly_string" then 3
  else if s = "mostly_float" then 4
  else if s = "mostly_integer" then 5
  else if s = "mostly_boolean" then 6
  else if s = "iso_string" then 7
  else if s = "json_object" then 8
  else if s = "json_array" then 9
  else if s = "float" then 10
  else if s = "integer" then 11
  else if s = "boolean" then 12
  else 999

/-- `_resolve_schema_conflict`: keep the current strategy unless the new one
has strictly smaller priority number. -/
def resolveSchemaConflict (current newStrategy : String) : String :=
  if strategyPriority current ≤ strategyPriority newStrategy then current
  else newStrategy

/-- `update_global_schema`: iterate over the batch fields; a missing field is
added with its strategy (default "string"), a field whose stored strategy
differs from the incoming one is replaced by the conflict resolution. -/
def updateGlobalSchema (schema : Schema) (fields : List String)
    (fieldStrategies : Schema) : Schema :=
  match fields with
  | [] => schema
  | f :: rest =>
    let incoming := (dictGet fieldStrategies f).getD "string"
    let schema' :=
      match dictGet schema f with
      | none => schema ++ [(f, incoming)]
      | some current =>
        if current = incoming then schema
        else dictSet schema f (resolveSchemaConflict current incoming)
    updateGlobalSchema schema' rest fieldStrategies

mutual

/-- `_get_detailed_type` together with its helper over list elements (the
code samples the first 10 items of a list; mapping first and then taking 10
gives the same sampled types). -/
def detailedType : Value → String
  | .vNull => "null"
  | .vBool _ => "boolean"
  | .vInt _ => "integer"
  | .vFloat _ => "float"
  | .vStr _ => "string"
  | .vList xs =>
    if xs.isEmpty then "empty_list"
    else
      let inner := ((detailedTypeList xs).take 10).dedup
      if inner.length = 1 then "list_of_" ++ inner.headD "" else "mixed_list"
  | .vDict kvs => if kvs.isEmpty then "empty_dict" else "object"
  | .vDate _ => "datetime"
  | .vOid _ => "unknown"

def detailedTypeList : List Value → List String
  | [] => []
  | v :: vs => detailedType v :: detailedTypeList vs

end

/-- Per-field analysis dict built by `_create_normalization_strategies` (the
`sample_values` entry is only logged and is omitted). -/
structure FieldAnalysis where
  types : List (String × Nat)
  null_count : Nat
  total_count : Nat

/-- Loop body of the per-field analysis: count the record; a null (or
missing, which `record.get` reads as null) value bumps the null counter,
otherwise the value's detailed type counter is bumped. -/
def analyzeFieldStep (f : String) (a : FieldAnalysis) (r : Rec) : FieldAnalysis :=
  match pyGet r f with
  | .vNull =>
    { a with null_count := a.null_count + 1, total_count := a.total_count + 1 }
  | v =>
    let t := detailedType v
    { a with
        types := dictSet a.types t ((dictGet a.types t).getD 0 + 1),
        total_count := a.total_count + 1 }

/-- Analysis loop over the sample records for one field, from empty
counters. -/
def analyzeField (sample : List Rec) (f : String) : FieldAnalysis :=
  sample.foldl (analyzeFieldStep f) ⟨[], 0, 0⟩

/-- Python `max(type_counts, key=type_counts.get)`: scan keeping the first
maximum (strictly-greater replaces). -/
def maxByCount : List (String × Nat) → Option (String × Nat)
  | [] => none
  | p :: rest => some (rest.foldl (fun best q => if q.2 > best.2 then q else best) p)

/-- `_determine_field_strategy`, translated clause by clause. The single
float comparison `count / total_non_null > 0.7` is the exact comparison
`10 * count > 7 * total_non_null`, which coincides with the IEEE double
computation for all sample sizes the code can produce. -/
def determineFieldStrategy (fieldName : String) (a : FieldAnalysis) : String :=
  let totalNonNull := a.total_count - a.null_count
  if totalNonNull = 0 then "null"
  else if fieldName = "_id" then "string"
  else if a.types.length = 1 then
    let singleType := (a.types.map Prod.fst).headD ""
    if ["boolean", "integer", "float", "string"].contains singleType then singleType
    else if singleType.startsWith "list_" then "json_array"
    else if ["object", "empty_dict"].contains singleType then "json_object"
    else if singleType = "datetime" then "iso_string"
    else "string"
  else
    let typeCounts :=
      a.types.filter (fun p => ["boolean", "integer", "float", "string"].contains p.1)
    let mostly : Option String :=
      match maxByCount typeCounts with
      | some (t, c) =>
        if 10 * c > 7 * totalNonNull then some ("mostly_" ++ t) else none
      | none => none
    match mostly with
    | some s => s
    | none =>
      if a.types.any (fun p =>
            ["object", "mixed_list", "empty_dict", "empty_list"].contains p.1)
          || a.types.any (fun p => p.1.startsWith "list_") then "json_string"
      else "string"

/-- `_create_normalization_strategies`: analyse each field over the first
min(500, len(records)) records. -/
def createNormalizationStrategies (records : List Rec) (fields : List String) :
    Schema :=
  let sample := records.take (min 500 records.length)
  fields.map (fun f => (f, determineFieldStrategy f (analyzeField sample f)))

/-- Python `int(float)`: truncation toward zero. -/
def ratTrunc (q : Rat) : Int := if q < 0 then Int.ceil q else Int.floor q

/-- `_safe_string_conversion`: strings pass through, lists/dicts are JSON
dumped, datetime-likes yield their isoformat, everything else goes through
`str`. -/
def safeStringConversion (v : Value) : Value :=
  match v with
  | .vStr s => .vStr s
  | .vList xs => .vStr (jsonDumps (.vList xs))
  | .vDict kvs => .vStr (jsonDumps (.vDict kvs))
  | .vDate iso => .vStr iso
  | w => .vStr (pyStr w)

/-- `_safe_boolean_conversion`. A Python bool passes through; strings test
membership of the lowercased text in true/1/yes/on; numbers test nonzero; the
final `bool(value)` is truthiness (empty containers false, None false,
datetimes and ObjectIds true). -/
def safeBooleanConversion (v : Value) : Value :=
  match v with
  | .vBool b => .vBool b
  | .vStr s => .vBool (["true", "1", "yes", "on"].contains s.toLower)
  | .vInt n => .vBool (n ≠ 0)
  | .vFloat q => .vBool (q ≠ 0)
  | .vNull => .vBool false
  | .vList xs => .vBool (!xs.isEmpty)
  | .vDict kvs => .vBool (!kvs.isEmpty)
  | .vDate _ => .vBool true
  | .vOid _ => .vBool true

/-- `_safe_integer_conversion`. Note that a Python bool is an instance of
int, so the first branch returns a bool unchanged; string parsing goes
through `int(float(value))`, anything else yields 0. -/
def safeIntegerConversion (v : Value) : Value :=
  match v with
  | .vBool b => .vBool b
  | .vInt n => .vInt n
  | .vFloat q => .vInt (ratTrunc q)
  | .vStr s =>
    match parseDecimal s with
    | some q => .vInt (ratTrunc q)
    | none => .vInt 0
  | _ => .vInt 0

/-- `_safe_float_conversion`. A Python bool is an instance of int, so
`float(True)` is 1.0; unparsable strings and non-numbers yield 0.0. -/
def safeFloatConversion (v : Value) : Value :=
  match v with
  | .vBool b => .vFloat (cond b 1 0)
  | .vInt n => .vFloat (n : Rat)
  | .vFloat q => .vFloat q
  | .vStr s =>
    match parseDecimal s with
    | some q => .vFloat q
    | none => .vFloat 0
  | _ => .vFloat 0

/-- `_safe_json_conversion` (the try/except around `json.dumps` cannot fire in
the model, where serialization is total). -/
def safeJsonConversion (v : Value) : String := jsonDumps v

/-- `_apply_normalization_strategy`. None passes through untouched; then the
strategy name is dispatched exactly in source order. The try/except wrapper
is unreachable in the model because every modelled conversion is total. -/
def applyNormalizationStrategy (value : Value) (strategy _fieldName : String) :
    Value :=
  match value with
  | .vNull => .vNull
  | v =>
    if strategy = "null" then .vNull
    else if strategy = "string" || strategy.startsWith "mostly_string" then
      safeStringConversion v
    else if strategy = "boolean" || strategy.startsWith "mostly_boolean" then
      safeBooleanConversion v
    else if strategy = "integer" || strategy.startsWith "mostly_integer" then
      safeIntegerConversion v
    else if strategy = "float" || strategy.startsWith "mostly_float" then
      safeFloatConversion v
    else if strategy = "json_array" then
      match v with
      | .vList _ => .vStr (safeJsonConversion v)
      | _ => .vStr (pyStr v)
    else if strategy = "json_object" then
      match v with
      | .vDict _ => .vStr (safeJsonConversion v)
      | _ => .vStr (pyStr v)
    else if strategy = "json_string" then
      match v with
      | .vList _ => .vStr (safeJsonConversion v)
      | .vDict _ => .vStr (safeJsonConversion v)
      | _ => .vStr (pyStr v)
    else if strategy = "iso_string" then
      match v with
      | .vDate iso => .vStr iso
      | _ => .vStr (pyStr v)
    else safeStringConversion v

/-- First pass of `_clean_records_for_parquet`: the set of all field names
appearing in the batch. Python builds a set whose iteration order is
arbitrary; the model fixes one concrete enumeration without duplicates, and
every property proved about it is order-independent. -/
def allFieldsOf (records : List Rec) : List String :=
  ((records.map dictKeys).flatten).dedup

/-- Step 4 of `_clean_records_for_parquet`: the effective strategy dict, the
updated global schema's entry (default "string") for each batch field. -/
def effectiveStrategies (schema' : Schema) (fields : List String) : Schema :=
  fields.map (fun f => (f, (dictGet schema' f).getD "string"))

/-- The `all_known_fields` set of `_clean_records_for_parquet`:
`set(self.global_schema.keys()) | all_fields`, in a canonical duplicate-free
enumeration (Python set order is arbitrary; all proved properties are
order-independent). -/
def allKnownFields (schema' : Schema) (fields : List String) : List String :=
  (dictKeys schema' ++ fields).dedup

/-- Inner loop of `_clean_records_for_parquet`: rebuild one record over
`all_known_fields`, normalizing each value by
`effective_strategies.get(field, global_schema.get(field, "string"))`. -/
def cleanOneRecord (schema' effective : Schema) (allKnown : List String)
    (r : Rec) : Rec :=
  allKnown.map (fun f =>
    (f, applyNormalizationStrategy (pyGet r f)
      ((dictGet effective f).getD ((dictGet schema' f).getD "string")) f))

/-- `_clean_records_for_parquet`: collect the batch fields, build strategies,
fold them into the global schema, then rebuild every record over the union of
the (updated) global-schema keys and the batch fields. Returns the cleaned
batch and the updated schema (`self.global_schema` after the call). -/
def cleanRecordsForParquet (schema : Schema) (records : List Rec) :
    List Rec × Schema :=
  if records.isEmpty then (records, schema)
  else
    let fields := allFieldsOf records
    let strategies := createNormalizationStrategies records fields
    let schema' := updateGlobalSchema schema fields strategies
    (records.map
      (cleanOneRecord schema' (effectiveStrategies schema' fields)
        (allKnownFields schema' fields)),
     schema')

/-- Fields of the result dict of `upload_chunk_to_gcs` that the claims are
about (sizes and durations are environment-dependent and omitted). -/
structure UploadResult where
  chunk_index : Nat
  gcs_path : Option String
  success : Bool
  error : Option String

/-- Summary of one `upload_chunk_to_gcs` call: the returned dict, the global
schema after the call, whether the local temp file still exists when the
function returns, and the records written into the local file. -/
structure UploadEffects where
  result : UploadResult
  schema : Schema
  tempLeft : Bool
  written : List Rec

/-- Zero-padding of `f"chunk_{chunk_index:06d}"`. -/
def pad6 (n : Nat) : String :=
  let s := toString n
  String.mk (List.replicate (6 - s.length) '0') ++ s

/-- `upload_chunk_to_gcs`. Local file IO and the DataFrame conversion are
modelled as total; `upload` stands for the outcome of
`blob.upload_from_filename` (an exception there is caught by the outer
`except`, which returns a failure dict). The temp file is created by the
parquet or jsonl writer and removed only by the `file_path.unlink()` that
follows a successful upload, which is what `tempLeft` records. -/
def uploadChunkToGCS (outputFormat pfx : String) (schema : Schema)
    (chunkIndex : Nat) (records : List Rec) (upload : Except String Unit) :
    UploadEffects :=
  if records.isEmpty then
    { result := { chunk_index := chunkIndex, gcs_path := none,
                  success := false, error := some "No records to upload" },
      schema := schema, tempLeft := false, written := [] }
  else
    let ext := if outputFormat = "parquet" then ".parquet" else ".jsonl"
    let gcsPath := pfx ++ "chunk_" ++ pad6 chunkIndex ++ ext
    let writtenAndSchema :=
      if outputFormat = "parquet" then cleanRecordsForParquet schema records
      else (records, schema)
    match upload with
    | .ok _ =>
      { result := { chunk_index := chunkIndex, gcs_path := some gcsPath,
                    success := true, error := none },
        schema := writtenAndSchema.2, tempLeft := false,
        written := writtenAndSchema.1 }
    | .error e =>
      { result := { chunk_index := chunkIndex, gcs_path := none,
                    success := false, error := some e },
        schema := writtenAndSchema.2, tempLeft := true,
        written := writtenAndSchema.1 }

/-- Conflict resolution never increases the priority number of the stored
strategy. -/
theorem resolveSchemaConflict_le (c n : String) :
    strategyPriority (resolveSchemaConflict c n) ≤ strategyPriority c := by
  unfold resolveSchemaConflict
  split
  · exact le_refl _
  · omega

/-- Lookup after an in-place update at the same key. -/
theorem dictGet_dictSet_self {α : Type} (d : List (String × α)) (k : String)
    (v : α) : dictGet (dictSet d k v) k = some v := by
  induction d with
  | nil => simp [dictSet, dictGet]
  | cons p rest ih =>
    obtain ⟨k', v'⟩ := p
    by_cases h : k' = k
    · subst h
      simp [dictSet, dictGet]
    · simp [dictSet, dictGet, h, ih]

/-- Lookup after an in-place update at a different key. -/
theorem dictGet_dictSet_ne {α : Type} (d : List (String × α)) (k k' : String)
    (v : α) (h : k ≠ k') : dictGet (dictSet d k v) k' = dictGet d k' := by
  induction d with
  | nil => simp [dictSet, dictGet, h]
  | cons p rest ih =>
    obtain ⟨k0, v0⟩ := p
    by_cases h0 : k0 = k
    · subst h0
      simp [dictSet, dictGet, h]
    · simp [dictSet, dictGet, h0, ih]

/-- Lookup distributes over append, preferring the first list. -/
theorem dictGet_append {α : Type} (d e : List (String × α)) (k : String) :
    dictGet (d ++ e) k =
      match dictGet d k with
      | some v => some v
      | none => dictGet e k := by
  induction d with
  | nil => simp [dictGet]
  | cons p rest ih =>
    obtain ⟨k0, v0⟩ := p
    by_cases h0 : k0 = k
    · simp [dictGet, h0]
    · simp [dictGet, h0, ih]

/-- C2: once a field is present in the global schema, one round of
`update_global_schema` can only replace its strategy by one of equal or lower
priority number (equal or higher generality); the schema never narrows. -/
theorem updateGlobalSchema_monotone (fields : List String) :
    ∀ (schema strategies : Schema) (f s : String),
      dictGet schema f = some s →
      ∃ s', dictGet (updateGlobalSchema schema fields strategies) f = some s' ∧
        strategyPriority s' ≤ strategyPriority s := by
  induction fields with
  | nil =>
    intro schema strategies f s h
    exact ⟨s, h, le_refl _⟩
  | cons g rest ih =>
    intro schema strategies f s h
    show ∃ s', dictGet
      (updateGlobalSchema
        (match dictGet schema g with
         | none => schema ++ [(g, (dictGet strategies g).getD "string")]
         | some current =>
           if current = (dictGet strategies g).getD "string" then schema
           else dictSet schema g
             (resolveSchemaConflict current ((dictGet strategies g).getD "string")))
        rest strategies) f = some s' ∧ _
    rcases hg : dictGet schema g with _ | current
    · -- g is new: appended at the end, f's binding is untouched
      have hf : dictGet (schema ++ [(g, (dictGet strategies g).getD "string")]) f
          = some s := by
        rw [dictGet_append, h]
      simpa [hg] using ih _ strategies f s hf
    · by_cases hc : current = (dictGet strategies g).getD "string"
      · simpa [hg, hc] using ih _ strategies f s h
      · by_cases hgf : g = f
        · subst hgf
          have hcs : current = s := by
            rw [h] at hg
            exact (Option.some.inj hg).symm
          subst hcs
          have hf : dictGet (dictSet schema g
              (resolveSchemaConflict current ((dictGet strategies g).getD "string"))) g
              = some (resolveSchemaConflict current ((dictGet strategies g).getD "string")) :=
            dictGet_dictSet_self _ _ _
          obtain ⟨s', hs', hle⟩ := ih _ strategies g _ hf
          refine ⟨s', ?_, le_trans hle (resolveSchemaConflict_le _ _)⟩
          simpa [hg, hc] using hs'
        · have hf : dictGet (dictSet schema g
              (resolveSchemaConflict current ((dictGet strategies g).getD "string"))) f
              = some s := by
            rw [dictGet_dictSet_ne _ _ _ _ hgf, h]
          simpa [hg, hc] using ih _ strategies f s hf

/-- Witness for C2: the field a, stored as integer (priority 11), is widened
to string (priority 2) by a conflicting batch. -/
theorem updateGlobalSchema_monotone_witness :
    dictGet [("a", "integer")] "a" = some "integer" ∧
    ∃ s', dictGet (updateGlobalSchema [("a", "integer")] ["a"] [("a", "string")]) "a"
        = some s' ∧ strategyPriority s' ≤ strategyPriority "integer" :=
  ⟨rfl, updateGlobalSchema_monotone ["a"] [("a", "integer")] [("a", "string")]
    "a" "integer" rfl⟩

/-- C6 (amended): for a profile of the primary-key field "_id" holding at
least one non-null sample, the strategy is "string" regardless of the type
distribution. -/
theorem determineFieldStrategy_id (a : FieldAnalysis)
    (h : a.total_count - a.null_count ≠ 0) :
    determineFieldStrategy "_id" a = "string" := by
  unfold determineFieldStrategy
  simp [h]

/-- Witness for C6 (amended): a profile with one non-null integer sample. -/
theorem determineFieldStrategy_id_witness :
    (1 : Nat) - 0 ≠ 0 ∧
    determineFieldStrategy "_id" ⟨[("integer", 1)], 0, 1⟩ = "string" :=
  ⟨by decide, determineFieldStrategy_id ⟨[("integer", 1)], 0, 1⟩ (by decide)⟩

/-- Counterexample to C6 as stated: the all-null guard precedes the "_id"
branch, so the profile of an "_id" column whose sampled values are all null
resolves to "null", not "string". -/
theorem determineFieldStrategy_id_cex :
    determineFieldStrategy "_id" (analyzeField [[("_id", Value.vNull)]] "_id")
      ≠ "string" := by
  intro h
  have h0 : determineFieldStrategy "_id" (analyzeField [[("_id", Value.vNull)]] "_id")
      = "null" := rfl
  rw [h0] at h
  exact absurd h (by decide)

/-- C5 (amended): for a non-empty chunk the local temp file is removed
exactly when the upload succeeds; an upload exception leaves it behind. -/
theorem uploadChunk_cleanup (outputFormat pfx : String) (schema : Schema)
    (i : Nat) (records : List Rec) (upload : Except String Unit)
    (h : records ≠ []) :
    ((uploadChunkToGCS outputFormat pfx schema i records upload).tempLeft = false
      ↔ upload = Except.ok ()) := by
  unfold uploadChunkToGCS
  rw [if_neg (by simpa [List.isEmpty_iff] using h)]
  cases upload with
  | ok u =>
    cases u
    simp
  | error e =>
    simp

/-- Witness for C5 (amended) on a one-record chunk with a successful upload. -/
theorem uploadChunk_cleanup_witness :
    ([[("a", Value.vInt 1)]] : List Rec) ≠ [] ∧
    ((uploadChunkToGCS "jsonl" "mongodb_export/" [] 0 [[("a", Value.vInt 1)]]
        (Except.ok ())).tempLeft = false ↔
      (Except.ok () : Except String Unit) = Except.ok ()) :=
  ⟨by simp, uploadChunk_cleanup "jsonl" "mongodb_export/" [] 0
    [[("a", Value.vInt 1)]] (Except.ok ()) (by simp)⟩

/-- Counterexample to C5 as stated: on a non-empty chunk whose upload raises,
control jumps to the outer except before `file_path.unlink()` runs, so the
temp file is still present when the function returns. -/
theorem uploadChunk_cleanup_cex :
    ¬ ((uploadChunkToGCS "jsonl" "mongodb_export/" [] 0 [[("a", Value.vInt 1)]]
        (Except.error "upload failed")).tempLeft = false) := by
  intro h
  have h0 : (uploadChunkToGCS "jsonl" "mongodb_export/" [] 0
      [[("a", Value.vInt 1)]] (Except.error "upload failed")).tempLeft = true := rfl
  rw [h0] at h
  exact Bool.noConfusion h

/-- C10: on the jsonl path the records are written exactly as received and
the global schema is untouched; normalization runs only on the parquet
path. -/
theorem uploadChunk_jsonl_passthrough (pfx : String) (schema : Schema)
    (i : Nat) (records : List Rec) (upload : Except String Unit) :
    (uploadChunkToGCS "jsonl" pfx schema i records upload).written = records ∧
    (uploadChunkToGCS "jsonl" pfx schema i records upload).schema = schema := by
  unfold uploadChunkToGCS
  by_cases h : records.isEmpty
  · have h0 : records = [] := by simpa [List.isEmpty_iff] using h
    subst h0
    simp
  · rw [if_neg (by simpa using h)]
    cases upload with
    | ok u =>
      cases u
      simp
    | error e =>
      simp

/-- Lookup of an absent key. -/
theorem dictGet_none_of_not_mem {α : Type} (d : List (String × α)) (k : String)
    (h : k ∉ dictKeys d) : dictGet d k = none := by
  induction d with
  | nil => rfl
  | cons p rest ih =>
    obtain ⟨k0, v0⟩ := p
    have h1 : k ≠ k0 ∧ k ∉ dictKeys rest := by
      simpa [dictKeys, not_or] using h
    have h2 : k0 ≠ k := fun hh => h1.1 hh.symm
    rw [dictGet, if_neg h2]
    exact ih h1.2

/-- A successful lookup means the key is present. -/
theorem mem_of_dictGet_some {α : Type} {d : List (String × α)} {k : String}
    {v : α} (h : dictGet d k = some v) : k ∈ dictKeys d := by
  induction d with
  | nil => exact absurd h (by rw [dictGet]; exact Option.noConfusion)
  | cons p rest ih =>
    obtain ⟨k0, v0⟩ := p
    by_cases h0 : k0 = k
    · subst h0
      exact List.mem_cons_self _ _
    · rw [dictGet, if_neg h0] at h
      exact List.mem_cons_of_mem _ (ih h)

/-- In-place update of a present key preserves the key list. -/
theorem dictKeys_dictSet_of_mem {α : Type} (d : List (String × α)) (k : String)
    (v : α) (h : k ∈ dictKeys d) : dictKeys (dictSet d k v) = dictKeys d := by
  induction d with
  | nil => simp [dictKeys] at h
  | cons p rest ih =>
    obtain ⟨k0, v0⟩ := p
    by_cases h0 : k0 = k
    · subst h0
      simp [dictSet, dictKeys]
    · have hr : k ∈ dictKeys rest := by
        rcases List.mem_cons.mp h with hh | hh
        · exact absurd hh.symm h0
        · exact hh
      simp only [dictSet, if_neg h0, dictKeys, List.map_cons]
      exact congrArg (List.cons k0) (ih hr)

/-- Unfolding `update_global_schema` at a field absent from the schema. -/
theorem updateGlobalSchema_cons_new (schema strategies : Schema) (g : String)
    (rest : List String) (hg : dictGet schema g = none) :
    updateGlobalSchema schema (g :: rest) strategies
      = updateGlobalSchema (schema ++ [(g, (dictGet strategies g).getD "string")])
          rest strategies := by
  simp [updateGlobalSchema, hg]

/-- Unfolding `update_global_schema` at a field whose stored strategy agrees
with the incoming one. -/
theorem updateGlobalSchema_cons_same (schema strategies : Schema) (g : String)
    (rest : List String) (current : String)
    (hg : dictGet schema g = some current)
    (hc : current = (dictGet strategies g).getD "string") :
    updateGlobalSchema schema (g :: rest) strategies
      = updateGlobalSchema schema rest strategies := by
  simp [updateGlobalSchema, hg, hc]

/-- Unfolding `update_global_schema` at a field with a strategy conflict. -/
theorem updateGlobalSchema_cons_conflict (schema strategies : Schema)
    (g : String) (rest : List String) (current : String)
    (hg : dictGet schema g = some current)
    (hc : current ≠ (dictGet strategies g).getD "string") :
    updateGlobalSchema schema (g :: rest) strategies
      = updateGlobalSchema
          (dictSet schema g
            (resolveSchemaConflict current ((dictGet strategies g).getD "string")))
          rest strategies := by
  simp [updateGlobalSchema, hg, hc]

/-- Key membership after one `update_global_schema` round: the old keys plus
the batch fields. -/
theorem mem_keys_updateGlobalSchema (fields : List String) :
    ∀ (schema strategies : Schema) (x : String),
      x ∈ dictKeys (updateGlobalSchema schema fields strategies) ↔
        x ∈ dictKeys schema ∨ x ∈ fields := by
  induction fields with
  | nil =>
    intro schema strategies x
    simp [updateGlobalSchema]
  | cons g rest ih =>
    intro schema strategies x
    rcases hg : dictGet schema g with _ | current
    · rw [updateGlobalSchema_cons_new schema strategies g rest hg, ih]
      have happ : x ∈ dictKeys (schema ++ [(g, (dictGet strategies g).getD "string")])
          ↔ x ∈ dictKeys schema ∨ x = g := by
        simp [dictKeys]
      rw [happ, List.mem_cons]
      tauto
    · have hmem : g ∈ dictKeys schema := mem_of_dictGet_some hg
      have habs : x = g → x ∈ dictKeys schema := fun hh => hh ▸ hmem
      by_cases hc : current = (dictGet strategies g).getD "string"
      · rw [updateGlobalSchema_cons_same schema strategies g rest current hg hc,
          ih, List.mem_cons]
        tauto
      · rw [updateGlobalSchema_cons_conflict schema strategies g rest current hg hc,
          ih, dictKeys_dictSet_of_mem schema g _ hmem, List.mem_cons]
        tauto

/-- The rebuilt record is keyed exactly by `all_known_fields`. -/
theorem dictKeys_cleanOneRecord (s e : Schema) (k : List String) (r : Rec) :
    dictKeys (cleanOneRecord s e k r) = k := by
  simp only [cleanOneRecord, dictKeys, List.map_map]
  have hcomp : (Prod.fst ∘ fun f =>
      (f, applyNormalizationStrategy (pyGet r f)
        ((dictGet e f).getD ((dictGet s f).getD "string")) f)) = id := rfl
  rw [hcomp, List.map_id]

/-- Lookup in a list pairing each key with a function of it. -/
theorem dictGet_pairing {β : Type} (g : String → β) (l : List String) (f : String) :
    dictGet (l.map (fun x => (x, g x))) f
      = if f ∈ l then some (g f) else none := by
  induction l with
  | nil => simp [dictGet]
  | cons a rest ih =>
    by_cases h : a = f
    · subst h
      simp [dictGet]
    · rw [List.map_cons, dictGet, if_neg h, ih]
      by_cases hf : f ∈ rest
      · rw [if_pos hf, if_pos (List.mem_cons_of_mem _ hf)]
      · have hnc : f ∉ a :: rest := by
          intro hc
          rcases List.mem_cons.mp hc with hc | hc
          · exact h hc.symm
          · exact hf hc
        rw [if_neg hf, if_neg hnc]

/-- Normalizing an absent (null) value yields null for every strategy. -/
theorem applyNormalization_null (strategy fieldName : String) :
    applyNormalizationStrategy Value.vNull strategy fieldName = Value.vNull := rfl

/-- Zipping a list with its image pairs each element with its image. -/
theorem zip_self_map {α β : Type} (l : List α) (g : α → β) :
    l.zip (l.map g) = l.map (fun a => (a, g a)) := by
  induction l with
  | nil => rfl
  | cons a rest ih =>
    simp [ih]

/-- Set of field names appearing anywhere in a batch. -/
def batchFields (records : List Rec) : Finset String :=
  (allFieldsOf records).toFinset

/-- Characterization of the batch field set. -/
theorem mem_batchFields {records : List Rec} {f : String} :
    f ∈ batchFields records ↔ ∃ r ∈ records, f ∈ dictKeys r := by
  simp only [batchFields, allFieldsOf, List.mem_toFinset, List.mem_dedup,
    List.mem_flatten]
  constructor
  · rintro ⟨l, hl, hf⟩
    obtain ⟨r, hr, rfl⟩ := List.mem_map.1 hl
    exact ⟨r, hr, hf⟩
  · rintro ⟨r, hr, hf⟩
    exact ⟨dictKeys r, List.mem_map.2 ⟨r, hr, rfl⟩, hf⟩

/-- C1 statement: the cleaned batch has one output per input record; every
output record's field set equals the union of the starting global schema's
keys and the batch fields; and any field of that union absent from an input
record is present with a null value in the corresponding output record. -/
def NormalizedBatchOK (schema : Schema) (records : List Rec) : Prop :=
  (cleanRecordsForParquet schema records).1.length = records.length ∧
  (∀ r' ∈ (cleanRecordsForParquet schema records).1,
    (dictKeys r').toFinset = (dictKeys schema).toFinset ∪ batchFields records) ∧
  ∀ pair ∈ records.zip (cleanRecordsForParquet schema records).1,
    ∀ f ∈ (dictKeys schema).toFinset ∪ batchFields records,
      f ∉ dictKeys pair.1 → dictGet pair.2 f = some Value.vNull

/-- C1: for every non-empty batch and every starting global schema, all
cleaned records share the exact field set global-schema-keys union
batch-fields, with a null value at every field the input record lacked. -/
theorem cleanRecords_uniform (schema : Schema) (records : List Rec)
    (h : records ≠ []) : NormalizedBatchOK schema records := by
  have hne : ¬ records.isEmpty = true := by
    simpa [List.isEmpty_iff] using h
  have heq : cleanRecordsForParquet schema records =
      (records.map
        (cleanOneRecord
          (updateGlobalSchema schema (allFieldsOf records)
            (createNormalizationStrategies records (allFieldsOf records)))
          (effectiveStrategies
            (updateGlobalSchema schema (allFieldsOf records)
              (createNormalizationStrategies records (allFieldsOf records)))
            (allFieldsOf records))
          (allKnownFields
            (updateGlobalSchema schema (allFieldsOf records)
              (createNormalizationStrategies records (allFieldsOf records)))
            (allFieldsOf records))),
       updateGlobalSchema schema (allFieldsOf records)
         (createNormalizationStrategies records (allFieldsOf records))) := by
    unfold cleanRecordsForParquet
    rw [if_neg hne]
  have hknown : (allKnownFields
      (updateGlobalSchema schema (allFieldsOf records)
        (createNormalizationStrategies records (allFieldsOf records)))
      (allFieldsOf records)).toFinset
      = (dictKeys schema).toFinset ∪ batchFields records := by
    ext x
    simp only [allKnownFields, List.mem_toFinset, List.mem_dedup,
      List.mem_append, Finset.mem_union, batchFields]
    rw [mem_keys_updateGlobalSchema]
    tauto
  refine ⟨?_, ?_, ?_⟩
  · rw [heq]
    simp
  · rw [heq]
    intro r' hr'
    obtain ⟨r, _, rfl⟩ := List.mem_map.1 hr'
    rw [dictKeys_cleanOneRecord]
    exact hknown
  · rw [heq]
    intro pair hpair f hf hnot
    simp only at hpair
    rw [zip_self_map] at hpair
    obtain ⟨r, _, rfl⟩ := List.mem_map.1 hpair
    simp only at hnot ⊢
    have hfK : f ∈ allKnownFields
        (updateGlobalSchema schema (allFieldsOf records)
          (createNormalizationStrategies records (allFieldsOf records)))
        (allFieldsOf records) := by
      rw [← List.mem_toFinset, hknown]
      exact hf
    rw [cleanOneRecord, dictGet_pairing, if_pos hfK]
    have hrnull : pyGet r f = Value.vNull := by
      rw [pyGet, dictGet_none_of_not_mem _ _ hnot]
      rfl
    rw [hrnull, applyNormalization_null]

/-- Witness for C1: a two-record batch with disjoint field sets and a
pre-existing global schema entry. -/
theorem cleanRecords_uniform_witness :
    ([[("a", Value.vInt 1)], [("b", Value.vStr "x")]] : List Rec) ≠ [] ∧
    NormalizedBatchOK [("old", "string")]
      [[("a", Value.vInt 1)], [("b", Value.vStr "x")]] :=
  ⟨by simp, cleanRecords_uniform [("old", "string")]
    [[("a", Value.vInt 1)], [("b", Value.vStr "x")]] (by simp)⟩

/-- Primitive type name of a value, when the value is one of the four Python
primitives the round-trip claim concerns. -/
def primTypeName : Value → Option String
  | .vBool _ => some "boolean"
  | .vInt _ => some "integer"
  | .vFloat _ => some "float"
  | .vStr _ => some "string"
  | _ => none

/-- On primitives the detailed type is the primitive type name. -/
theorem detailedType_of_prim {v : Value} {t : String}
    (h : primTypeName v = some t) : detailedType v = t := by
  cases v <;> simp [primTypeName] at h <;> simp [detailedType, ← h]

/-- A present key yields its first binding. -/
theorem dictGet_some_of_mem {α : Type} {d : List (String × α)} {k : String}
    (h : k ∈ dictKeys d) : ∃ v, dictGet d k = some v ∧ (k, v) ∈ d := by
  induction d with
  | nil => simp [dictKeys] at h
  | cons p rest ih =>
    obtain ⟨k0, v0⟩ := p
    by_cases h0 : k0 = k
    · subst h0
      exact ⟨v0, by rw [dictGet, if_pos rfl], List.mem_cons_self _ _⟩
    · have hr : k ∈ dictKeys rest := by
        rcases List.mem_cons.mp h with hh | hh
        · exact absurd hh.symm h0
        · exact hh
      obtain ⟨v, hv, hmem⟩ := ih hr
      exact ⟨v, by rw [dictGet, if_neg h0]; exact hv, List.mem_cons_of_mem _ hmem⟩

/-- Fields not mentioned in the update round keep their binding. -/
theorem dictGet_updateGlobalSchema_not_mem (fields : List String) :
    ∀ (schema strategies : Schema) (f : String), f ∉ fields →
      dictGet (updateGlobalSchema schema fields strategies) f
        = dictGet schema f := by
  induction fields with
  | nil =>
    intro schema strategies f _
    rfl
  | cons g rest ih =>
    intro schema strategies f hf
    have hfg : f ≠ g := fun hh => hf (hh ▸ List.mem_cons_self _ _)
    have hfr : f ∉ rest := fun hh => hf (List.mem_cons_of_mem _ hh)
    rcases hg : dictGet schema g with _ | current
    · rw [updateGlobalSchema_cons_new schema strategies g rest hg, ih _ _ _ hfr,
        dictGet_append]
      rcases hs : dictGet schema f with _ | v
      · simp [dictGet, Ne.symm hfg]
      · rfl
    · by_cases hc : current = (dictGet strategies g).getD "string"
      · rw [updateGlobalSchema_cons_same schema strategies g rest current hg hc,
          ih _ _ _ hfr]
      · rw [updateGlobalSchema_cons_conflict schema strategies g rest current hg hc,
          ih _ _ _ hfr, dictGet_dictSet_ne _ _ _ _ (fun hh => hfg hh.symm)]

/-- Updating an empty-at-f schema with a duplicate-free field list stores each
listed field's incoming strategy (default "string"). -/
theorem dictGet_updateGlobalSchema_empty (fields : List String) :
    ∀ (schema strategies : Schema) (f : String), fields.Nodup →
      f ∉ dictKeys schema →
      dictGet (updateGlobalSchema schema fields strategies) f
        = if f ∈ fields then some ((dictGet strategies f).getD "string")
          else none := by
  induction fields with
  | nil =>
    intro schema strategies f _ hf
    simp [updateGlobalSchema, dictGet_none_of_not_mem _ _ hf]
  | cons g rest ih =>
    intro schema strategies f hnd hf
    have hgr : g ∉ rest := (List.nodup_cons.mp hnd).1
    have hndr : rest.Nodup := (List.nodup_cons.mp hnd).2
    rcases hg : dictGet schema g with _ | current
    · rw [updateGlobalSchema_cons_new schema strategies g rest hg]
      by_cases hfg : f = g
      · subst hfg
        rw [dictGet_updateGlobalSchema_not_mem rest _ _ _ hgr, dictGet_append, hg]
        simp [dictGet, List.mem_cons]
      · have hf1 : f ∉ dictKeys
            (schema ++ [(g, (dictGet strategies g).getD "string")]) := by
          intro hcon
          rw [dictKeys, List.map_append] at hcon
          rcases List.mem_append.mp hcon with hh | hh
          · exact hf hh
          · have : f = g := by simpa using hh
            exact hfg this
        rw [ih _ _ _ hndr hf1]
        by_cases hfr2 : f ∈ rest
        · simp [hfr2, List.mem_cons]
        · simp [hfr2, hfg, List.mem_cons]
    · have hgmem : g ∈ dictKeys schema := mem_of_dictGet_some hg
      have hfg : f ≠ g := fun hh => hf (hh ▸ hgmem)
      by_cases hc : current = (dictGet strategies g).getD "string"
      · rw [updateGlobalSchema_cons_same schema strategies g rest current hg hc,
          ih _ _ _ hndr hf]
        by_cases hfr2 : f ∈ rest
        · simp [hfr2, List.mem_cons]
        · simp [hfr2, hfg, List.mem_cons]
      · have hf2 : f ∉ dictKeys (dictSet schema g
            (resolveSchemaConflict current ((dictGet strategies g).getD "string"))) := by
          rw [dictKeys_dictSet_of_mem _ _ _ hgmem]
          exact hf
        rw [updateGlobalSchema_cons_conflict schema strategies g rest current hg hc,
          ih _ _ _ hndr hf2]
        by_cases hfr2 : f ∈ rest
        · simp [hfr2, List.mem_cons]
        · simp [hfr2, hfg, List.mem_cons]

/-- Normalizing a primitive value by its own primitive strategy is the
identity. -/
theorem applyNormalization_prim {v : Value} {t : String}
    (h : primTypeName v = some t) (fieldName : String) :
    applyNormalizationStrategy v t fieldName = v := by
  cases v with
  | vBool b =>
    have ht : t = "boolean" := by simpa [primTypeName] using h.symm
    subst ht
    rfl
  | vInt n =>
    have ht : t = "integer" := by simpa [primTypeName] using h.symm
    subst ht
    rfl
  | vFloat q =>
    have ht : t = "float" := by simpa [primTypeName] using h.symm
    subst ht
    rfl
  | vStr s =>
    have ht : t = "string" := by simpa [primTypeName] using h.symm
    subst ht
    rfl
  | vNull => simp [primTypeName] at h
  | vList xs => simp [primTypeName] at h
  | vDict kvs => simp [primTypeName] at h
  | vDate iso => simp [primTypeName] at h
  | vOid hx => simp [primTypeName] at h

/-- The primitive type names. -/
theorem primTypeName_mem {v : Value} {t : String}
    (h : primTypeName v = some t) :
    t ∈ ["boolean", "integer", "float", "string"] := by
  cases v <;> simp [primTypeName] at h <;> simp [← h]

/-- One analysis step on a record holding a primitive value for the field. -/
theorem analyzeFieldStep_prim {f t : String} {r : Rec} {v : Value}
    (hv : dictGet r f = some v) (ht : primTypeName v = some t)
    (a : FieldAnalysis) :
    analyzeFieldStep f a r =
      { a with types := dictSet a.types t ((dictGet a.types t).getD 0 + 1),
               total_count := a.total_count + 1 } := by
  have hp : pyGet r f = v := by rw [pyGet, hv]; rfl
  have hd := detailedType_of_prim ht
  cases v with
  | vBool b => simp [analyzeFieldStep, hp, hd]
  | vInt n => simp [analyzeFieldStep, hp, hd]
  | vFloat q => simp [analyzeFieldStep, hp, hd]
  | vStr s => simp [analyzeFieldStep, hp, hd]
  | vNull => simp [primTypeName] at ht
  | vList xs => simp [primTypeName] at ht
  | vDict kvs => simp [primTypeName] at ht
  | vDate iso => simp [primTypeName] at ht
  | vOid hx => simp [primTypeName] at ht

/-- Folding the analysis over records that all hold a `t`-typed primitive at
the field adds the sample length to the single `t` counter. -/
theorem analyzeField_fold_prim (f t : String) :
    ∀ (sample : List Rec),
      (∀ r ∈ sample, ∃ v, dictGet r f = some v ∧ primTypeName v = some t) →
      ∀ (c n : Nat),
        sample.foldl (analyzeFieldStep f) ⟨[(t, c)], 0, n⟩
          = ⟨[(t, c + sample.length)], 0, n + sample.length⟩ := by
  intro sample
  induction sample with
  | nil =>
    intro _ c n
    simp
  | cons r rest ih =>
    intro h c n
    obtain ⟨v, hv, ht⟩ := h r (List.mem_cons_self _ _)
    rw [List.foldl_cons, analyzeFieldStep_prim hv ht]
    have hgetl : dictGet [(t, c)] t = some c := by
      rw [dictGet, if_pos rfl]
    have hsetl : dictSet [(t, c)] t (c + 1) = [(t, c + 1)] := by
      rw [dictSet, if_pos rfl]
    simp only [hgetl, Option.getD_some, hsetl]
    rw [ih (fun r hr => h r (List.mem_cons_of_mem _ hr)) (c + 1) (n + 1)]
    have h1 : c + 1 + rest.length = c + (r :: rest).length := by
      simp [List.length_cons]
      omega
    have h2 : n + 1 + rest.length = n + (r :: rest).length := by
      simp [List.length_cons]
      omega
    rw [h1, h2]

/-- Closed form of the analysis for a field that holds exactly one primitive
type across a non-empty sample: a single type counter, no nulls. -/
theorem analyzeField_prim (f t : String) (sample : List Rec)
    (hne : sample ≠ [])
    (h : ∀ r ∈ sample, ∃ v, dictGet r f = some v ∧ primTypeName v = some t) :
    analyzeField sample f = ⟨[(t, sample.length)], 0, sample.length⟩ := by
  obtain ⟨r0, rest, rfl⟩ := List.exists_cons_of_ne_nil hne
  obtain ⟨v, hv, ht⟩ := h r0 (List.mem_cons_self _ _)
  rw [analyzeField, List.foldl_cons, analyzeFieldStep_prim hv ht]
  show List.foldl (analyzeFieldStep f) ⟨[(t, 1)], 0, 1⟩ rest
      = ⟨[(t, (r0 :: rest).length)], 0, (r0 :: rest).length⟩
  rw [analyzeField_fold_prim f t rest
    (fun r hr => h r (List.mem_cons_of_mem _ hr)) 1 1]
  have h1 : 1 + rest.length = (r0 :: rest).length := by
    simp [List.length_cons]
    omega
  rw [h1]

/-- A single dominant primitive type profile resolves to that type (for
non-primary-key fields, or for "_id" when the type is string). -/
theorem determineFieldStrategy_single_prim (f t : String) (m : Nat)
    (hm : m ≠ 0) (ht : t ∈ ["boolean", "integer", "float", "string"])
    (hid : f = "_id" → t = "string") :
    determineFieldStrategy f ⟨[(t, m)], 0, m⟩ = t := by
  by_cases hf : f = "_id"
  · subst hf
    rw [hid rfl] at *
    simp [determineFieldStrategy, hm]
  · simp only [List.mem_cons, List.not_mem_nil, or_false] at ht
    rcases ht with rfl | rfl | rfl | rfl <;>
      simp [determineFieldStrategy, hm, hf]

/-- C9 (amended): a batch in which every record carries the same field set
and every field holds one fixed primitive type — with any "_id" field holding
strings — normalizes under an empty global schema to itself: each output
record has exactly the bindings of its input record. -/
theorem cleanRecords_roundTrip (records : List Rec) (T : String → String)
    (hne : records ≠ [])
    (hkeys : ∀ r ∈ records, (dictKeys r).toFinset = batchFields records)
    (htypes : ∀ r ∈ records, ∀ p ∈ r, primTypeName p.2 = some (T p.1))
    (hid : T "_id" = "string") :
    ∀ pair ∈ records.zip (cleanRecordsForParquet [] records).1,
      ∀ f : String, dictGet pair.2 f = dictGet pair.1 f := by
  intro pair hpair f
  have hnb : ¬ records.isEmpty = true := by simpa [List.isEmpty_iff] using hne
  rw [show cleanRecordsForParquet [] records =
      (records.map
        (cleanOneRecord
          (updateGlobalSchema [] (allFieldsOf records)
            (createNormalizationStrategies records (allFieldsOf records)))
          (effectiveStrategies
            (updateGlobalSchema [] (allFieldsOf records)
              (createNormalizationStrategies records (allFieldsOf records)))
            (allFieldsOf records))
          (allKnownFields
            (updateGlobalSchema [] (allFieldsOf records)
              (createNormalizationStrategies records (allFieldsOf records)))
            (allFieldsOf records))),
       updateGlobalSchema [] (allFieldsOf records)
         (createNormalizationStrategies records (allFieldsOf records)))
    from by unfold cleanRecordsForParquet; rw [if_neg hnb]] at hpair
  simp only at hpair
  rw [zip_self_map] at hpair
  obtain ⟨r, hr, rfl⟩ := List.mem_map.1 hpair
  simp only
  set FS := allFieldsOf records with hFSdef
  set STR := createNormalizationStrategies records FS with hSTRdef
  set SU := updateGlobalSchema [] FS STR with hSUdef
  set E := effectiveStrategies SU FS with hEdef
  set K := allKnownFields SU FS with hKdef
  have hndFS : FS.Nodup := by
    rw [hFSdef, allFieldsOf]
    exact List.nodup_dedup _
  have hFmem : ∀ g, g ∈ FS ↔ g ∈ batchFields records := by
    intro g
    simp [hFSdef, batchFields, List.mem_toFinset]
  have hprim : ∀ g ∈ FS, ∀ r' ∈ records,
      ∃ v, dictGet r' g = some v ∧ primTypeName v = some (T g) := by
    intro g hg r' hr'
    have hgk : g ∈ dictKeys r' := by
      rw [← List.mem_toFinset, hkeys r' hr']
      exact (hFmem g).mp hg
    obtain ⟨v, hv, hmem⟩ := dictGet_some_of_mem hgk
    exact ⟨v, hv, htypes r' hr' (g, v) hmem⟩
  have hslen : (records.take (min 500 records.length)).length
      = min 500 records.length := by
    rw [List.length_take]
    exact Nat.min_eq_left (Nat.min_le_right _ _)
  have hspos : 0 < min 500 records.length :=
    lt_min (by norm_num) (List.length_pos.mpr hne)
  have hsne : records.take (min 500 records.length) ≠ [] := by
    intro hh
    rw [hh] at hslen
    simp only [List.length_nil] at hslen
    rw [← hslen] at hspos
    exact Nat.lt_irrefl 0 hspos
  have hSTRget : ∀ g ∈ FS, dictGet STR g = some (T g) := by
    intro g hg
    rw [hSTRdef, createNormalizationStrategies]
    rw [dictGet_pairing, if_pos hg]
    congr 1
    rw [analyzeField_prim g (T g) _ hsne
      (fun r' hr' => hprim g hg r' (List.take_subset _ _ hr'))]
    obtain ⟨r0, hr0⟩ : ∃ r0, r0 ∈ records := by
      cases records with
      | nil => exact absurd rfl hne
      | cons a rest => exact ⟨a, List.mem_cons_self _ _⟩
    obtain ⟨v0, _, ht0⟩ := hprim g hg r0 hr0
    apply determineFieldStrategy_single_prim
    · rw [hslen]
      omega
    · exact primTypeName_mem ht0
    · intro hgid
      rw [hgid]
      exact hid
  have hSUget : ∀ g ∈ FS, dictGet SU g = some (T g) := by
    intro g hg
    rw [hSUdef, dictGet_updateGlobalSchema_empty FS [] STR g hndFS
      (by simp [dictKeys]), if_pos hg, hSTRget g hg]
    rfl
  have hEget : ∀ g ∈ FS, dictGet E g = some (T g) := by
    intro g hg
    rw [hEdef, effectiveStrategies, dictGet_pairing, if_pos hg, hSUget g hg]
    rfl
  have hKmem : ∀ g, g ∈ K ↔ g ∈ FS := by
    intro g
    rw [hKdef, allKnownFields, List.mem_dedup, List.mem_append]
    constructor
    · rintro (hh | hh)
      · rw [hSUdef] at hh
        rcases (mem_keys_updateGlobalSchema FS [] STR g).mp hh with h0 | h0
        · simp [dictKeys] at h0
        · exact h0
      · exact hh
    · intro hh
      exact Or.inr hh
  by_cases hf : f ∈ FS
  · rw [cleanOneRecord, dictGet_pairing, if_pos ((hKmem f).mpr hf)]
    obtain ⟨v, hv, htv⟩ := hprim f hf r hr
    have hpy : pyGet r f = v := by
      rw [pyGet, hv]
      rfl
    rw [hpy, hEget f hf]
    simp only [Option.getD_some]
    rw [applyNormalization_prim htv, hv]
  · have hfk : f ∉ K := fun hh => hf ((hKmem f).mp hh)
    rw [cleanOneRecord, dictGet_pairing, if_neg hfk]
    have hfr : f ∉ dictKeys r := by
      intro hh
      apply hf
      refine (hFmem f).mpr ?_
      rw [← hkeys r hr]
      exact List.mem_toFinset.mpr hh
    rw [dictGet_none_of_not_mem _ _ hfr]

/-- Witness for C9 (amended) at the batch of the spec's example record,
instantiated at the field "b": the cleaned record keeps the binding. -/
theorem cleanRecords_roundTrip_witness :
    dictGet ((cleanRecordsForParquet []
        [[("a", Value.vInt 1), ("b", Value.vStr "x"),
          ("c", Value.vBool true)]]).1.headD []) "b"
      = dictGet [("a", Value.vInt 1), ("b", Value.vStr "x"),
          ("c", Value.vBool true)] "b" := by
  have h := cleanRecords_roundTrip
    [[("a", Value.vInt 1), ("b", Value.vStr "x"), ("c", Value.vBool true)]]
    (fun f => if f = "a" then "integer" else if f = "c" then "boolean"
      else "string")
    (by simp) (by decide) (by decide) (by decide)
  have hmem : (([("a", Value.vInt 1), ("b", Value.vStr "x"),
        ("c", Value.vBool true)] : Rec),
      (cleanRecordsForParquet []
        [[("a", Value.vInt 1), ("b", Value.vStr "x"),
          ("c", Value.vBool true)]]).1.headD []) ∈
      ([[("a", Value.vInt 1), ("b", Value.vStr "x"),
        ("c", Value.vBool true)]] : List Rec).zip
        (cleanRecordsForParquet []
          [[("a", Value.vInt 1), ("b", Value.vStr "x"),
            ("c", Value.vBool true)]]).1 :=
    List.mem_cons_self _ _
  exact h _ hmem "b"

/-- Counterexample to C9 as stated: the single-record batch whose only field
is "_id" holding the unambiguous integer 5 does not normalize to itself — the
"_id" special case coerces it to the string "5". -/
theorem cleanRecords_roundTrip_cex :
    dictGet ((cleanRecordsForParquet [] [[("_id", Value.vInt 5)]]).1.headD [])
        "_id" = some (Value.vStr "5") ∧
    dictGet [("_id", Value.vInt 5)] "_id" = some (Value.vInt 5) ∧
    Value.vStr "5" ≠ Value.vInt 5 := by
  refine ⟨rfl, rfl, ?_⟩
  intro h
  exact Value.noConfusion h

end GCSUploader

section Progress

/-- The Redis store: keys to hashes of string fields (decode_responses=True
makes every stored value a string). -/
abbrev Store := List (String × List (String × String))

/-- `ProgressTracker.__init__`: the job key is derived from the clock second
at which the tracker object is constructed
(`f"mongo2gcs:-colon-int(time.time())"` without the placeholder braces). -/
def jobKey (constructedAt : Nat) : String :=
  "mongo2gcs:" ++ toString constructedAt

/-- Key of one chunk's status hash, from `update_chunk_status` and
`get_progress`. -/
def chunkKey (jk : String) (chunkId : Nat) : String :=
  jk ++ ":chunk:" ++ toString chunkId

/-- Redis `hset key mapping`: create the hash or merge the mapping into it. -/
def hset (st : Store) (key : String) (mapping : List (String × String)) :
    Store :=
  match dictGet st key with
  | none => st ++ [(key, mapping)]
  | some h => dictSet st key (mapping.foldl (fun acc p => dictSet acc p.1 p.2) h)

/-- Redis `hgetall`: the hash at `key`, empty when the key is absent. -/
def hgetall (st : Store) (key : String) : List (String × String) :=
  (dictGet st key).getD []

/-- `initialize_job`, run by the tracker constructed at orchestration start. -/
def initializeJob (constructedAt totalChunks totalRecords : Nat)
    (st : Store) : Store :=
  hset st (jobKey constructedAt)
    [("total_chunks", toString totalChunks),
     ("total_records", toString totalRecords),
     ("start_time", toString constructedAt),
     ("status", "running")]

/-- `update_chunk_status`, run by whichever `ProgressTracker` instance the
caller constructed (`constructedAt` is that instance's construction second,
`now` the update timestamp written into `updated_at`). -/
def updateChunkStatus (constructedAt chunkId : Nat) (status : String)
    (now : Nat) (st : Store) : Store :=
  hset st (chunkKey (jobKey constructedAt) chunkId)
    [("status", status), ("updated_at", toString now)]

/-- Counters returned by `get_progress` (the percentage and timing fields are
derived or environment-dependent and omitted). -/
structure ProgressStats where
  total_chunks : Nat
  completed_chunks : Nat
  failed_chunks : Nat
  pending_chunks : Nat
deriving DecidableEq

/-- `get_progress`: read the job hash under this tracker's own job key
(returning none when that hash is empty, the falsy-dict early return), then
scan chunk ids `0..total_chunks-1` under the same job key, counting hashes
whose status is completed or failed. Python's `int()` on the stored decimal
text is `digitsToNat`. -/
def getProgress (constructedAt : Nat) (st : Store) : Option ProgressStats :=
  let jobInfo := hgetall st (jobKey constructedAt)
  if jobInfo.isEmpty then none
  else
    let total :=
      (digitsToNat ((dictGet jobInfo "total_chunks").getD "0").toList).getD 0
    let counts := (List.range total).foldl
      (fun (acc : Nat × Nat) cid =>
        let chunkInfo := hgetall st (chunkKey (jobKey constructedAt) cid)
        if chunkInfo.isEmpty then acc
        else
          let status := (dictGet chunkInfo "status").getD "pending"
          if status = "completed" then (acc.1 + 1, acc.2)
          else if status = "failed" then (acc.1, acc.2 + 1)
          else acc)
      (0, 0)
    some { total_chunks := total, completed_chunks := counts.1,
           failed_chunks := counts.2,
           pending_chunks := total - counts.1 - counts.2 }

/-- C4 exhibit: the orchestrator constructs its tracker at second 1000 and
initializes a one-chunk job; the worker process (`process_chunk` in main.py)
constructs its own fresh tracker at second 1001 and marks chunk 0 completed.
The worker's chunk-status key differs from the key the orchestrator's
snapshot reads, so `get_progress` reports zero completed and the chunk as
still pending — the claimed single job identifier per run does not hold. -/
theorem progress_jobKey_mismatch :
    chunkKey (jobKey 1001) 0 ≠ chunkKey (jobKey 1000) 0 ∧
    getProgress 1000 (updateChunkStatus 1001 0 "completed" 1002
      (initializeJob 1000 1 100 [])) =
      some { total_chunks := 1, completed_chunks := 0, failed_chunks := 0,
             pending_chunks := 1 } := by
  constructor
  · decide
  · decide

end Progress

end Mongo2GCS
